import Mathlib

/-!
Shallow embedding of the `pdf-to-anki-cards` pipeline core
(`src/pipeline/chunker.py`, `src/pipeline/quality.py`,
`src/pipeline/generator.py`, `src/pipeline/extractor.py`,
`src/pipeline/ocr_extractor.py`) and proofs about it.

Python strings are modelled as `List Char` (`Str`).  Python's
whitespace-driven primitives (`str.strip`, `str.split`) are modelled for
the ASCII whitespace characters; Python additionally treats some rare
Unicode spaces as whitespace, which none of the statements below depend
on.  `float` arithmetic in `_jaccard` is modelled with exact rationals:
the quotient `len(wa & wb) / len(wa | wb)` of small integers, and all
statements proved are insensitive to float rounding.
-/

namespace PdfAnki

abbrev Str := List Char

/-- ASCII whitespace as recognised by Python's `str.split()` / `str.strip()`. -/
def isPySpace (c : Char) : Bool :=
  c = ' ' || c = '\t' || c = '\n' || c = '\r' || c = '\x0b' || c = '\x0c'

/-- Python `str.strip()`: drop leading and trailing whitespace. -/
def pyStrip (s : Str) : Str :=
  (((s.dropWhile isPySpace).reverse).dropWhile isPySpace).reverse

/-- Emit the pending token (accumulated in reverse) if it is non-empty. -/
def emitTok (cur : Str) : List Str :=
  if cur = [] then [] else [cur.reverse]

/-- Worker for `pySplit`; `cur` holds the current token reversed. -/
def pySplitGo (cur : Str) : Str → List Str
  | [] => emitTok cur
  | c :: cs =>
    if isPySpace c then emitTok cur ++ pySplitGo [] cs
    else pySplitGo (c :: cur) cs

/-- Python `str.split()` with no argument: whitespace tokenization,
no empty tokens. -/
def pySplit (s : Str) : List Str := pySplitGo [] s

/-- `len(text.split())` — the word count used by the chunker. -/
def wordCount (s : Str) : Nat := (pySplit s).length

-- ---------------------------------------------------------------------------
-- src/pipeline/chunker.py
-- ---------------------------------------------------------------------------

/-- A page dict `{"page": n, "text": t}` as produced by the extractor. -/
structure Page where
  page : Nat
  text : Str
deriving DecidableEq, Repr

/-- A chunk dict `{"pages": [...], "text": ...}`. -/
structure Chunk where
  pages : List Nat
  text : Str
deriving DecidableEq, Repr

/-- Python `"\n\n".join(texts)`. -/
def joinNN : List Str → Str
  | [] => []
  | [t] => t
  | t :: ts => t ++ '\n' :: '\n' :: joinNN ts

/-- `_make_chunk(pages)` from chunker.py. -/
def make_chunk (ps : List Page) : Chunk :=
  { pages := ps.map Page.page
    text := joinNN (ps.map Page.text) }

/-- The `for page in pages` loop of `create_chunks`, with the accumulator
(`current_pages`, `current_words`) passed explicitly, followed by the
final flush `if current_pages: chunks.append(...)`. -/
def chunkLoop (maxW : Nat) : List Page → List Page → Nat → List Chunk
  | [], cur, _ => if cur = [] then [] else [make_chunk cur]
  | p :: ps, cur, w =>
    let wc := wordCount p.text
    if maxW < w + wc ∧ cur ≠ [] then
      make_chunk cur :: chunkLoop maxW ps [p] wc
    else
      chunkLoop maxW ps (cur ++ [p]) (w + wc)

/-- `create_chunks(pages, max_words_per_chunk)` from chunker.py. -/
def create_chunks (pages : List Page) (maxW : Nat) : List Chunk :=
  chunkLoop maxW pages [] 0

/-- Sum of the word counts of a list of pages. -/
def sumW (ps : List Page) : Nat := (ps.map (fun p => wordCount p.text)).sum

-- ---------------------------------------------------------------------------
-- Word-count lemmas: splitting on whitespace distributes over a join
-- whose separator is whitespace.
-- ---------------------------------------------------------------------------

theorem pySplitGo_append_nl (a : Str) :
    ∀ cur b, pySplitGo cur (a ++ '\n' :: b) = pySplitGo cur a ++ pySplitGo [] b := by
  induction a with
  | nil =>
    intro cur b
    simp only [List.nil_append, pySplitGo]
    have : isPySpace '\n' = true := by decide
    simp [this, pySplitGo]
  | cons c cs ih =>
    intro cur b
    simp only [List.cons_append, pySplitGo]
    by_cases h : isPySpace c
    · simp [h, ih]
    · simp [h, ih]

theorem pySplit_append_nl (a b : Str) :
    pySplit (a ++ '\n' :: b) = pySplit a ++ pySplit b :=
  pySplitGo_append_nl a [] b

theorem wordCount_joinNN (ts : List Str) :
    wordCount (joinNN ts) = (ts.map wordCount).sum := by
  induction ts with
  | nil => rfl
  | cons t ts ih =>
    cases ts with
    | nil => simp [joinNN, wordCount]
    | cons t2 ts2 =>
      show wordCount (t ++ '\n' :: '\n' :: joinNN (t2 :: ts2)) = _
      have h1 : pySplit (t ++ '\n' :: '\n' :: joinNN (t2 :: ts2))
          = pySplit t ++ pySplit ('\n' :: joinNN (t2 :: ts2)) :=
        pySplit_append_nl t _
      have h2 : pySplit ('\n' :: joinNN (t2 :: ts2)) = pySplit (joinNN (t2 :: ts2)) := by

        simpa using pySplit_append_nl [] (joinNN (t2 :: ts2))
      simp only [wordCount] at ih ⊢
      rw [h1, h2, List.length_append, ih]
      simp [wordCount]

theorem wordCount_make_chunk (ps : List Page) :
    wordCount (make_chunk ps).text = sumW ps := by
  simp [make_chunk, sumW, wordCount_joinNN, List.map_map, Function.comp]
  rfl

-- ---------------------------------------------------------------------------
-- Chunker loop invariants
-- ---------------------------------------------------------------------------

theorem chunkLoop_pages (maxW : Nat) :
    ∀ (ps cur : List Page) (w : Nat),
      (chunkLoop maxW ps cur w).flatMap Chunk.pages
        = cur.map Page.page ++ ps.map Page.page := by
  intro ps
  induction ps with
  | nil =>
    intro cur w
    by_cases h : cur = [] <;> simp [chunkLoop, h, make_chunk]
  | cons p ps ih =>
    intro cur w
    simp only [chunkLoop]
    by_cases h : maxW < w + wordCount p.text ∧ cur ≠ []
    · simp [h, ih, make_chunk]
    · simp [h, ih]

/-- Every chunk emitted by the loop is `make_chunk` of a non-empty infix of
the original page list, and obeys the word bound unless it is a single page. -/
theorem chunkLoop_shape (maxW : Nat) (pages : List Page) :
    ∀ (ps cur : List Page) (w : Nat),
      w = sumW cur →
      (2 ≤ cur.length → w ≤ maxW) →
      (cur ++ ps) <:+ pages →
      ∀ ch ∈ chunkLoop maxW ps cur w,
        ∃ qs : List Page, qs ≠ [] ∧ qs <:+: pages ∧ ch = make_chunk qs ∧
          (2 ≤ qs.length → sumW qs ≤ maxW) ∧
          (maxW < sumW qs → qs.length = 1) := by
  intro ps
  induction ps with
  | nil =>
    intro cur w hw hbound hsuf ch hch
    simp only [chunkLoop] at hch
    by_cases h : cur = []
    · simp [h] at hch
    · simp only [if_neg h, List.mem_singleton] at hch
      refine ⟨cur, h, ?_, hch, ?_, ?_⟩
      · exact (by simpa using hsuf : cur <:+ pages).isInfix
      · intro h2; exact hw ▸ hbound h2
      · intro hgt
        rcases cur with _ | ⟨c, _ | ⟨d, cs⟩⟩
        · exact absurd rfl h
        · rfl
        · exact absurd (hw ▸ hbound (by simp [Nat.succ_le_succ])) (Nat.not_le_of_lt hgt)
  | cons p ps ih =>
    intro cur w hw hbound hsuf ch hch
    simp only [chunkLoop] at hch
    by_cases h : maxW < w + wordCount p.text ∧ cur ≠ []
    · rw [if_pos h] at hch
      rcases List.mem_cons.1 hch with hch | hch
      · refine ⟨cur, h.2, ?_, hch, ?_, ?_⟩
        · have : cur <+: cur ++ p :: ps := ⟨p :: ps, rfl⟩
          exact List.IsInfix.trans this.isInfix hsuf.isInfix
        · intro h2; exact hw ▸ hbound h2
        · intro hgt
          rcases cur with _ | ⟨c, _ | ⟨d, cs⟩⟩
          · exact absurd rfl h.2
          · rfl
          · exact absurd (hw ▸ hbound (by simp [Nat.succ_le_succ])) (Nat.not_le_of_lt hgt)
      · refine ih [p] (wordCount p.text) (by simp [sumW]) ?_ ?_ ch hch
        · intro h2; simp at h2
        · have : p :: ps <:+ cur ++ p :: ps := ⟨cur, rfl⟩
          simpa using this.trans hsuf
    · rw [if_neg h] at hch
      refine ih (cur ++ [p]) (w + wordCount p.text) ?_ ?_ ?_ ch hch
      · simp [sumW, hw]
      · intro h2
        rcases Nat.lt_or_ge maxW (w + wordCount p.text) with hlt | hle
        · rcases (not_and_or.1 h) with h1 | h1
          · exact absurd hlt h1
          · -- cur = [], so cur ++ [p] has length 1 and h2 is absurd
            have hcur : cur = [] := not_not.1 h1
            subst hcur
            simp at h2
        · exact hle
      · simpa using hsuf

-- ---------------------------------------------------------------------------
-- C1, C2, C7
-- ---------------------------------------------------------------------------

/-- C1 — Chunk coverage: for every list of pages and every positive word
limit, the concatenation of the page-number lists of the chunks returned
by `create_chunks` equals the input page-number sequence (each input page
exactly once, in order), and empty input yields an empty chunk list. -/
theorem chunk_coverage (pages : List Page) (maxW : Nat) (h : 0 < maxW) :
    (create_chunks pages maxW).flatMap Chunk.pages = pages.map Page.page ∧
    (pages = [] → create_chunks pages maxW = []) := by
  constructor
  · simpa using chunkLoop_pages maxW pages [] 0
  · intro hp; subst hp; rfl

/-- Witness for C1 at a concrete input. -/
theorem chunk_coverage_witness :
    (create_chunks [⟨1, "hello world".data⟩, ⟨2, "bye".data⟩] 2).flatMap Chunk.pages
      = [1, 2] :=
  (chunk_coverage [⟨1, "hello world".data⟩, ⟨2, "bye".data⟩] 2 (by decide)).1

/-- C2 — Chunk word bound: for every list of pages and every positive word
limit, every chunk with two or more pages has word count at most
`max_words_per_chunk`, and a chunk exceeding the limit consists of exactly
one page (whose own word count then exceeds the limit). -/
theorem chunk_word_bound (pages : List Page) (maxW : Nat) (hpos : 0 < maxW) :
    ∀ ch ∈ create_chunks pages maxW,
      (2 ≤ ch.pages.length → wordCount ch.text ≤ maxW) ∧
      (maxW < wordCount ch.text → ch.pages.length = 1) := by
  intro ch hch
  obtain ⟨qs, hne, hinf, hmk, hb1, hb2⟩ :=
    chunkLoop_shape maxW pages pages [] 0 (by simp [sumW]) (by simp) (by simp) ch hch
  subst hmk
  have hlen : (make_chunk qs).pages.length = qs.length := by simp [make_chunk]
  have hwc : wordCount (make_chunk qs).text = sumW qs := wordCount_make_chunk qs
  rw [hlen, hwc]
  exact ⟨hb1, hb2⟩

/-- Witness for C2 at a concrete input: two one-word pages, limit 1. -/
theorem chunk_word_bound_witness :
    (2 ≤ (Chunk.mk [1] "aa".data).pages.length → wordCount (Chunk.mk [1] "aa".data).text ≤ 1) ∧
    (1 < wordCount (Chunk.mk [1] "aa".data).text → (Chunk.mk [1] "aa".data).pages.length = 1) :=
  chunk_word_bound [⟨1, "aa".data⟩, ⟨2, "bb".data⟩] 1 (by decide)
    (Chunk.mk [1] "aa".data) (by decide)

/-- C7 (counterexample) — the chunker joins member page texts with a
double newline `"\n\n"`, not a single newline: on pages with texts
`"a"` and `"b"` the produced chunk text is `"a\n\nb"`, which differs
from the single-newline join `"a\nb"`. -/
theorem chunk_text_counterexample :
    (create_chunks [⟨1, "a".data⟩, ⟨2, "b".data⟩] 100).map Chunk.text
      = ["a\n\nb".data] ∧ "a\n\nb".data ≠ "a\nb".data := by
  constructor
  · rfl
  · decide

/-- C7 (amended) — every chunk produced by `create_chunks` is built from a
non-empty consecutive run of input pages, its page-number list is that
run's page numbers in order, and its text is the member pages' texts
joined by a blank line (two newline characters), in page order. -/
theorem chunk_text_join (pages : List Page) (maxW : Nat) :
    ∀ ch ∈ create_chunks pages maxW,
      ∃ qs : List Page, qs ≠ [] ∧ qs <:+: pages ∧
        ch.pages = qs.map Page.page ∧
        ch.text = joinNN (qs.map Page.text) := by
  intro ch hch
  obtain ⟨qs, hne, hinf, hmk, _, _⟩ :=
    chunkLoop_shape maxW pages pages [] 0 (by simp [sumW]) (by simp) (by simp) ch hch
  exact ⟨qs, hne, hinf, by rw [hmk]; rfl, by rw [hmk]; rfl⟩

/-- Witness for C7's amended theorem at a concrete input. -/
theorem chunk_text_join_witness :
    ∃ qs : List Page, qs ≠ [] ∧ qs <:+: [⟨1, "a".data⟩, ⟨2, "b".data⟩] ∧
      (Chunk.mk [1, 2] "a\n\nb".data).pages = qs.map Page.page ∧
      (Chunk.mk [1, 2] "a\n\nb".data).text = joinNN (qs.map Page.text) :=
  chunk_text_join [⟨1, "a".data⟩, ⟨2, "b".data⟩] 100
    (Chunk.mk [1, 2] "a\n\nb".data) (by decide)

-- ---------------------------------------------------------------------------
-- src/pipeline/quality.py
-- ---------------------------------------------------------------------------

/-- A card dict.  quality.py distinguishes cards by key presence
(`"front" in c`, `"text" in c`); absent keys are `none`. -/
structure Card where
  front : Option Str
  back : Option Str
  text : Option Str
  topic : Option Str
deriving DecidableEq, Repr

/-- Python `str.lower()` (ASCII case folding; the statements below do not
depend on non-ASCII case folding since keys are only compared for
similarity after identical processing). -/
def lowerStr (s : Str) : Str := s.map Char.toLower

/-- The lazy group `(.+?)` of `_CLOZE_RE` followed by `\}\}`: consume the
shortest non-empty newline-free prefix of the input that is immediately
followed by `}}`; return the group and the text after the braces. -/
def lazyGroup : Str → Str → Option (Str × Str)
  | _, [] => none
  | acc, c :: cs =>
    if c = '\n' then none
    else
      match cs with
      | '\x7d' :: '\x7d' :: rest => some (acc ++ [c], rest)
      | _ => lazyGroup (acc ++ [c]) cs

/-- Match `_CLOZE_RE = \{\{c\d+::(.+?)\}\}` at the start of `s`
(`\d+` is greedy but is forced to the maximal digit run by the
following `::`); on success return the captured group and the suffix
after the whole match. -/
def clozeHead (s : Str) : Option (Str × Str) :=
  match s with
  | '\x7b' :: '\x7b' :: 'c' :: r =>
    if r.takeWhile Char.isDigit = [] then none
    else
      match r.dropWhile Char.isDigit with
      | ':' :: ':' :: body => lazyGroup [] body
      | _ => none
  | _ => none

/-- `_CLOZE_RE.search(text) is not None`: a match starts somewhere. -/
def clozeSearch : Str → Bool
  | [] => false
  | c :: cs => (clozeHead (c :: cs)).isSome || clozeSearch cs

/-- Worker for `clozeSub`.  Each match consumes at least nine characters,
so `s.length` fuel always suffices and the fuel-exhausted branch is
unreachable; fuel keeps the recursion structural. -/
def clozeSubGo : Nat → Str → Str
  | 0, s => s
  | _ + 1, [] => []
  | fuel + 1, c :: cs =>
    match clozeHead (c :: cs) with
    | some (g, rest) => g ++ clozeSubGo fuel rest
    | none => c :: clozeSubGo fuel cs

/-- `_CLOZE_RE.sub(r"\1", text)`: replace every non-overlapping match,
left to right, by its captured group. -/
def clozeSub (s : Str) : Str := clozeSubGo s.length s

/-- `set(s.split())` — the token set used by `_jaccard`. -/
def tokenSet (s : Str) : Finset Str := (pySplit s).toFinset

/-- `_jaccard(a, b)` from quality.py (`float` modelled exactly as ℚ). -/
def jaccard (a b : Str) : ℚ :=
  if tokenSet a = ∅ ∨ tokenSet b = ∅ then 0
  else ((tokenSet a ∩ tokenSet b).card : ℚ) / ((tokenSet a ∪ tokenSet b).card : ℚ)

/-- The validation step of `_dedup_basic` for one card
(quality.py lines 23–27). -/
def basicEntry (c : Card) : Option Card :=
  if 12 ≤ (pyStrip (c.front.getD [])).length ∧ 10 ≤ (pyStrip (c.back.getD [])).length then
    some { front := some (pyStrip (c.front.getD [])), back := some (pyStrip (c.back.getD [])),
           text := none, topic := none }
  else none

/-- The validation step of `_dedup_cloze` for one card
(quality.py lines 48–52): keep iff the stripped text is non-empty,
matches `_CLOZE_RE`, and has length at least 20. -/
def clozeEntry (c : Card) : Option Card :=
  if pyStrip (c.text.getD []) ≠ [] ∧ clozeSearch (pyStrip (c.text.getD [])) = true ∧
      20 ≤ (pyStrip (c.text.getD [])).length then
    some { front := none, back := none, text := some (pyStrip (c.text.getD [])), topic := none }
  else none

def validBasic (cards : List Card) : List Card := cards.filterMap basicEntry

def validCloze (cards : List Card) : List Card := cards.filterMap clozeEntry

/-- Dedup key of a validated basic card: `card["front"].lower()`. -/
def basicKey (c : Card) : Str := lowerStr (c.front.getD [])

/-- Dedup key of a validated cloze card:
`_CLOZE_RE.sub(r"\1", card["text"]).lower()`. -/
def clozeKey (c : Card) : Str := lowerStr (clozeSub (c.text.getD []))

/-- The near-duplicate suppression loop shared by `_dedup_basic` and
`_dedup_cloze`, with the growing `seen` list passed explicitly:
drop a card iff some seen key has Jaccard similarity ≥ threshold. -/
def dedupBy (th : ℚ) (key : Card → Str) : List Card → List Str → List Card
  | [], _ => []
  | c :: cs, seen =>
    if ∃ s ∈ seen, th ≤ jaccard (key c) s then dedupBy th key cs seen
    else c :: dedupBy th key cs (seen ++ [key c])

/-- `_dedup_basic(cards, threshold)`. -/
def dedup_basic (cards : List Card) (th : ℚ) : List Card :=
  dedupBy th basicKey (validBasic cards) []

/-- `_dedup_cloze(cards, threshold)`. -/
def dedup_cloze (cards : List Card) (th : ℚ) : List Card :=
  dedupBy th clozeKey (validCloze cards) []

/-- `filter_and_deduplicate(cards, similarity_threshold)` from quality.py. -/
def filter_and_deduplicate (cards : List Card) (th : ℚ) : List Card :=
  dedup_basic (cards.filter fun c => c.front.isSome) th
    ++ dedup_cloze (cards.filter fun c => c.text.isSome) th

-- ---------------------------------------------------------------------------
-- `pyStrip` is idempotent
-- ---------------------------------------------------------------------------

theorem pyDrop_head : ∀ (l : Str) (x : Char) (xs : Str),
    l.dropWhile isPySpace = x :: xs → isPySpace x = false := by
  intro l
  induction l with
  | nil => intro x xs h; simp [List.dropWhile] at h
  | cons c cs ih =>
    intro x xs h
    rw [List.dropWhile_cons] at h
    cases hc : isPySpace c with
    | true => rw [hc] at h; simp at h; exact ih x xs h
    | false => rw [hc] at h; simp at h; rw [← h.1]; exact hc

theorem pyDrop_cons_false {c : Char} (hc : isPySpace c = false) (cs : Str) :
    (c :: cs).dropWhile isPySpace = c :: cs := by
  rw [List.dropWhile_cons, hc]; simp

theorem pyDrop_idem (l : Str) :
    (l.dropWhile isPySpace).dropWhile isPySpace = l.dropWhile isPySpace := by
  cases h : l.dropWhile isPySpace with
  | nil => rfl
  | cons x xs => exact pyDrop_cons_false (pyDrop_head l x xs h) xs

theorem pyStrip_idem (s : Str) : pyStrip (pyStrip s) = pyStrip s := by
  have hdrop : (pyStrip s).dropWhile isPySpace = pyStrip s := by
    cases h : pyStrip s with
    | nil => rfl
    | cons x xs =>
      have hpre : pyStrip s <+: s.dropWhile isPySpace := by
        rw [← List.reverse_suffix]
        show ((((s.dropWhile isPySpace).reverse).dropWhile isPySpace).reverse).reverse <:+ _
        rw [List.reverse_reverse]
        exact List.dropWhile_suffix _
      obtain ⟨r, hr⟩ := hpre
      rw [h] at hr
      have hx : isPySpace x = false :=
        pyDrop_head s x (xs ++ r) (by rw [← hr]; simp)
      exact pyDrop_cons_false hx xs
  have ht2 : (pyStrip s).reverse = ((s.dropWhile isPySpace).reverse).dropWhile isPySpace := by
    show ((((s.dropWhile isPySpace).reverse).dropWhile isPySpace).reverse).reverse = _
    rw [List.reverse_reverse]
  show (((pyStrip s).dropWhile isPySpace).reverse.dropWhile isPySpace).reverse = pyStrip s
  rw [hdrop, ht2, pyDrop_idem]
  rfl

-- ---------------------------------------------------------------------------
-- Membership lemmas for the dedup pipeline
-- ---------------------------------------------------------------------------

theorem dedupBy_subset (th : ℚ) (key : Card → Str) :
    ∀ (l : List Card) (seen : List Str) (c : Card), c ∈ dedupBy th key l seen → c ∈ l := by
  intro l
  induction l with
  | nil => intro seen c h; simp [dedupBy] at h
  | cons a as ih =>
    intro seen c h
    simp only [dedupBy] at h
    by_cases hc : ∃ s ∈ seen, th ≤ jaccard (key a) s
    · rw [if_pos hc] at h; exact List.mem_cons_of_mem a (ih seen c h)
    · rw [if_neg hc] at h
      rcases List.mem_cons.1 h with h | h
      · exact h ▸ List.mem_cons_self a as
      · exact List.mem_cons_of_mem a (ih _ c h)

theorem mem_validBasic {cards : List Card} {c : Card} (h : c ∈ validBasic cards) :
    ∃ f b : Str, c = ⟨some f, some b, none, none⟩ ∧
      12 ≤ f.length ∧ 10 ≤ b.length ∧ pyStrip f = f ∧ pyStrip b = b := by
  obtain ⟨a, _, ha⟩ := List.mem_filterMap.1 h
  unfold basicEntry at ha
  by_cases hc : 12 ≤ (pyStrip (a.front.getD [])).length ∧ 10 ≤ (pyStrip (a.back.getD [])).length
  · rw [if_pos hc] at ha
    refine ⟨pyStrip (a.front.getD []), pyStrip (a.back.getD []),
      (Option.some.inj ha).symm, hc.1, hc.2, pyStrip_idem _, pyStrip_idem _⟩
  · rw [if_neg hc] at ha; exact absurd ha (by simp)

theorem mem_validCloze {cards : List Card} {c : Card} (h : c ∈ validCloze cards) :
    ∃ t : Str, c = ⟨none, none, some t, none⟩ ∧
      t ≠ [] ∧ clozeSearch t = true ∧ 20 ≤ t.length ∧ pyStrip t = t := by
  obtain ⟨a, _, ha⟩ := List.mem_filterMap.1 h
  unfold clozeEntry at ha
  by_cases hc : pyStrip (a.text.getD []) ≠ [] ∧ clozeSearch (pyStrip (a.text.getD [])) = true ∧
      20 ≤ (pyStrip (a.text.getD [])).length
  · rw [if_pos hc] at ha
    exact ⟨pyStrip (a.text.getD []), (Option.some.inj ha).symm,
      hc.1, hc.2.1, hc.2.2, pyStrip_idem _⟩
  · rw [if_neg hc] at ha; exact absurd ha (by simp)

theorem mem_dedup_basic {cards : List Card} {th : ℚ} {c : Card}
    (h : c ∈ dedup_basic cards th) :
    ∃ f b : Str, c = ⟨some f, some b, none, none⟩ ∧
      12 ≤ f.length ∧ 10 ≤ b.length ∧ pyStrip f = f ∧ pyStrip b = b :=
  mem_validBasic (dedupBy_subset _ _ _ _ _ h)

theorem mem_dedup_cloze {cards : List Card} {th : ℚ} {c : Card}
    (h : c ∈ dedup_cloze cards th) :
    ∃ t : Str, c = ⟨none, none, some t, none⟩ ∧
      t ≠ [] ∧ clozeSearch t = true ∧ 20 ≤ t.length ∧ pyStrip t = t :=
  mem_validCloze (dedupBy_subset _ _ _ _ _ h)

-- ---------------------------------------------------------------------------
-- C3, C8
-- ---------------------------------------------------------------------------

/-- C3 — Quality/Dedup output well-formedness: every Q/A card returned by
`filter_and_deduplicate` has a trimmed front of at least 12 characters and
a trimmed back of at least 10; every cloze card returned has a trimmed
text of at least 20 characters containing a well-formed `{{cN::answer}}`
marker; all string fields in the output are whitespace-trimmed. -/
theorem quality_output_wellformed (cards : List Card) (th : ℚ) :
    ∀ c ∈ filter_and_deduplicate cards th,
      (∀ f, c.front = some f → 12 ≤ f.length ∧ pyStrip f = f) ∧
      (∀ b, c.back = some b → 10 ≤ b.length ∧ pyStrip b = b) ∧
      (∀ t, c.text = some t → 20 ≤ t.length ∧ clozeSearch t = true ∧ pyStrip t = t) ∧
      (∀ s, c.topic = some s → pyStrip s = s) := by
  intro c hc
  rcases List.mem_append.1 hc with h | h
  · obtain ⟨f, b, rfl, h12, h10, hf, hb⟩ := mem_dedup_basic h
    refine ⟨fun f' hf' => ?_, fun b' hb' => ?_, fun t' ht' => ?_, fun s' hs' => ?_⟩
    · obtain rfl : f = f' := Option.some.inj hf'
      exact ⟨h12, hf⟩
    · obtain rfl : b = b' := Option.some.inj hb'
      exact ⟨h10, hb⟩
    · exact absurd ht' (by simp)
    · exact absurd hs' (by simp)
  · obtain ⟨t, rfl, hne, hsearch, h20, ht⟩ := mem_dedup_cloze h
    refine ⟨fun f' hf' => ?_, fun b' hb' => ?_, fun t' ht' => ?_, fun s' hs' => ?_⟩
    · exact absurd hf' (by simp)
    · exact absurd hb' (by simp)
    · obtain rfl : t = t' := Option.some.inj ht'
      exact ⟨h20, hsearch, ht⟩
    · exact absurd hs' (by simp)

/-- Witness for C3 at a concrete input. -/
theorem quality_output_wellformed_witness :
    12 ≤ ("What is foo bar?".data).length ∧
      pyStrip "What is foo bar?".data = "What is foo bar?".data :=
  (quality_output_wellformed
      [⟨some "  What is foo bar?  ".data, some "It is a baz.".data, none, some "T".data⟩]
      (7/10)
      ⟨some "What is foo bar?".data, some "It is a baz.".data, none, none⟩
      (by decide)).1 "What is foo bar?".data rfl

/-- C8 — `filter_and_deduplicate` discards the optional topic field: every
output card carries exactly the keys front+back or exactly the key text,
and never a topic. -/
theorem quality_output_shape (cards : List Card) (th : ℚ) :
    ∀ c ∈ filter_and_deduplicate cards th,
      (c.front.isSome ∧ c.back.isSome ∧ c.text = none ∧ c.topic = none) ∨
      (c.front = none ∧ c.back = none ∧ c.text.isSome ∧ c.topic = none) := by
  intro c hc
  rcases List.mem_append.1 hc with h | h
  · obtain ⟨f, b, rfl, -, -, -, -⟩ := mem_dedup_basic h
    exact Or.inl ⟨rfl, rfl, rfl, rfl⟩
  · obtain ⟨t, rfl, -, -, -, -⟩ := mem_dedup_cloze h
    exact Or.inr ⟨rfl, rfl, rfl, rfl⟩

/-- Witness for C8 at a concrete input (a basic card with a topic key). -/
theorem quality_output_shape_witness :
    ((⟨some "What is foo bar?".data, some "It is a baz.".data, none, none⟩ : Card).front.isSome ∧
      (⟨some "What is foo bar?".data, some "It is a baz.".data, none, none⟩ : Card).back.isSome ∧
      (⟨some "What is foo bar?".data, some "It is a baz.".data, none, none⟩ : Card).text = none ∧
      (⟨some "What is foo bar?".data, some "It is a baz.".data, none, none⟩ : Card).topic = none) ∨
    ((⟨some "What is foo bar?".data, some "It is a baz.".data, none, none⟩ : Card).front = none ∧
      (⟨some "What is foo bar?".data, some "It is a baz.".data, none, none⟩ : Card).back = none ∧
      (⟨some "What is foo bar?".data, some "It is a baz.".data, none, none⟩ : Card).text.isSome ∧
      (⟨some "What is foo bar?".data, some "It is a baz.".data, none, none⟩ : Card).topic = none) :=
  quality_output_shape
    [⟨some "What is foo bar?".data, some "It is a baz.".data, none, some "T".data⟩] (7/10)
    ⟨some "What is foo bar?".data, some "It is a baz.".data, none, none⟩ (by decide)

-- ---------------------------------------------------------------------------
-- C4 — dedup idempotence
-- ---------------------------------------------------------------------------

theorem filterMap_eq_self {f : Card → Option Card} :
    ∀ l : List Card, (∀ c ∈ l, f c = some c) → l.filterMap f = l := by
  intro l
  induction l with
  | nil => intro _; rfl
  | cons a as ih =>
    intro h
    rw [List.filterMap_cons, h a (List.mem_cons_self a as),
      ih (fun c hc => h c (List.mem_cons_of_mem a hc))]

theorem dedupBy_idem (th : ℚ) (key : Card → Str) :
    ∀ (l : List Card) (seen : List Str),
      dedupBy th key (dedupBy th key l seen) seen = dedupBy th key l seen := by
  intro l
  induction l with
  | nil => intro seen; rfl
  | cons a as ih =>
    intro seen
    by_cases h : ∃ s ∈ seen, th ≤ jaccard (key a) s
    · simp only [dedupBy, if_pos h]
      exact ih seen
    · simp only [dedupBy, if_neg h]
      rw [ih (seen ++ [key a])]

/-- C4 — Dedup idempotence: for every card list and every similarity
threshold, `filter_and_deduplicate` applied to its own output returns
that output unchanged. -/
theorem dedup_idempotent (cards : List Card) (th : ℚ) :
    filter_and_deduplicate (filter_and_deduplicate cards th) th
      = filter_and_deduplicate cards th := by
  have hBmem := fun c (hc : c ∈ dedup_basic (cards.filter fun c => c.front.isSome) th) =>
    mem_dedup_basic hc
  have hZmem := fun c (hc : c ∈ dedup_cloze (cards.filter fun c => c.text.isSome) th) =>
    mem_dedup_cloze hc
  set B := dedup_basic (cards.filter fun c => c.front.isSome) th with hB
  set Z := dedup_cloze (cards.filter fun c => c.text.isSome) th with hZ
  have hfilter1 : (B ++ Z).filter (fun c => c.front.isSome) = B := by
    rw [List.filter_append]
    rw [List.filter_eq_self.2 (fun c hc => by
      obtain ⟨f, b, rfl, -⟩ := hBmem c hc; simp)]
    rw [List.filter_eq_nil_iff.2 (fun c hc => by
      obtain ⟨t, rfl, -⟩ := hZmem c hc; simp)]
    simp
  have hfilter2 : (B ++ Z).filter (fun c => c.text.isSome) = Z := by
    rw [List.filter_append]
    rw [List.filter_eq_nil_iff.2 (fun c hc => by
      obtain ⟨f, b, rfl, -⟩ := hBmem c hc; simp)]
    rw [List.filter_eq_self.2 (fun c hc => by
      obtain ⟨t, rfl, -⟩ := hZmem c hc; simp)]
    simp
  have hvb : validBasic B = B := filterMap_eq_self B (fun c hc => by
    obtain ⟨f, b, rfl, h12, h10, hf, hb⟩ := hBmem c hc
    simp only [basicEntry, Option.getD_some, hf, hb]
    rw [if_pos ⟨h12, h10⟩])
  have hvz : validCloze Z = Z := filterMap_eq_self Z (fun c hc => by
    obtain ⟨t, rfl, hne, hsearch, h20, ht⟩ := hZmem c hc
    simp only [clozeEntry, Option.getD_some, ht]
    rw [if_pos ⟨hne, hsearch, h20⟩])
  have hdb : dedup_basic B th = B := by
    rw [dedup_basic, hvb, hB, dedup_basic]
    exact dedupBy_idem th basicKey _ []
  have hdz : dedup_cloze Z th = Z := by
    rw [dedup_cloze, hvz, hZ, dedup_cloze]
    exact dedupBy_idem th clozeKey _ []
  show filter_and_deduplicate (B ++ Z) th = B ++ Z
  rw [filter_and_deduplicate, hfilter1, hfilter2, hdb, hdz]

-- ---------------------------------------------------------------------------
-- C6 — Jaccard bounds and edge cases
-- ---------------------------------------------------------------------------

/-- C6 (counterexample) — the claim `jaccard(a,a) == 1.0` for every
non-empty string `a` fails at the non-empty all-whitespace string `" "`,
whose token set is empty: `_jaccard` returns 0 there. -/
theorem jaccard_counterexample :
    " ".data ≠ [] ∧ jaccard " ".data " ".data = 0 ∧ jaccard " ".data " ".data ≠ 1 := by
  refine ⟨by decide, ?_, ?_⟩ <;> decide

/-- C6 (amended) — for every pair of strings the similarity is in [0,1];
`jaccard(a,a) = 1` for every `a` whose whitespace token set is non-empty
(rather than every non-empty `a`); and the result is 0 whenever either
argument's token set is empty — in particular for `b = ""`. -/
theorem jaccard_props (a b : Str) :
    (0 ≤ jaccard a b ∧ jaccard a b ≤ 1) ∧
    (tokenSet a ≠ ∅ → jaccard a a = 1) ∧
    (tokenSet a = ∅ ∨ tokenSet b = ∅ → jaccard a b = 0) ∧
    jaccard a [] = 0 := by
  refine ⟨?_, ?_, ?_, ?_⟩
  · by_cases h : tokenSet a = ∅ ∨ tokenSet b = ∅
    · rw [jaccard, if_pos h]
      norm_num
    · rw [jaccard, if_neg h]
      push_neg at h
      have hu : 0 < ((tokenSet a ∪ tokenSet b).card : ℚ) := by
        have : 0 < (tokenSet a ∪ tokenSet b).card := by
          refine Finset.card_pos.2 ?_
          obtain ⟨x, hx⟩ := Finset.nonempty_iff_ne_empty.2 h.1
          exact ⟨x, Finset.mem_union_left _ hx⟩
        exact_mod_cast this
      constructor
      · positivity
      · rw [div_le_one hu]
        exact_mod_cast Finset.card_le_card (Finset.inter_subset_union)
  · intro h
    rw [jaccard, if_neg (by simpa using h)]
    rw [Finset.inter_self, Finset.union_self]
    refine div_self ?_
    have : 0 < (tokenSet a).card := Finset.card_pos.2 (Finset.nonempty_iff_ne_empty.2 h)
    positivity
  · intro h
    rw [jaccard, if_pos h]
  · rw [jaccard, if_pos (Or.inr (by decide))]

/-- Witness for C6's amended theorem at concrete inputs. -/
theorem jaccard_props_witness :
    jaccard "x".data "x".data = 1 ∧ jaccard "x".data "".data = 0 :=
  ⟨(jaccard_props "x".data "x".data).2.1 (by decide),
   (jaccard_props "x".data "".data).2.2.1 (Or.inr (by decide))⟩

-- ---------------------------------------------------------------------------
-- src/pipeline/generator.py — `_validate`
-- ---------------------------------------------------------------------------

/-- An item of the parsed JSON card list as inspected by `_validate`
(generator.py lines 377–402).  Fields are modelled as optional strings:
`_validate` coerces the values it reads with `str(...)`, and items that
are not dicts (skipped by the code) are outside this model. -/
structure Item where
  type : Option Str
  text : Option Str
  front : Option Str
  back : Option Str
  topic : Option Str
deriving DecidableEq, Repr

/-- Does `s` start with `pat`? -/
def strStarts : Str → Str → Bool
  | [], _ => true
  | _ :: _, [] => false
  | p :: ps, c :: cs => p == c && strStarts ps cs

/-- Python `pat in s` (substring containment). -/
def strContains (pat : Str) : Str → Bool
  | [] => strStarts pat []
  | c :: cs => strStarts pat (c :: cs) || strContains pat cs

/-- Python `"\x7b\x7bc" in text`. -/
def hasMarker (s : Str) : Bool := strContains "\x7b\x7bc".data s

/-- The body of `_validate`'s per-item loop (generator.py lines 379–400).
The cloze branch is taken when the item declares `type == "cloze"` or has
a `"text"` key and no `"front"` key; inside it the item is kept only when
the stripped text is non-empty and contains `"\x7b\x7bc"`.  The `elif`
Q/A branch is reached only when the cloze-branch condition is false. -/
def validateItem (topicAware : Bool) (it : Item) : Option Card :=
  if it.type.getD [] = "cloze".data ∨ (it.text.isSome ∧ it.front = none) then
    if pyStrip (it.text.getD []) ≠ [] ∧ hasMarker (pyStrip (it.text.getD [])) = true then
      some { front := none, back := none, text := some (pyStrip (it.text.getD [])),
             topic := if topicAware ∧ pyStrip (it.topic.getD []) ≠ []
                      then some (pyStrip (it.topic.getD [])) else none }
    else none
  else if it.front.isSome ∧ it.back.isSome then
    if pyStrip (it.front.getD []) ≠ [] ∧ pyStrip (it.back.getD []) ≠ [] then
      some { front := some (pyStrip (it.front.getD [])),
             back := some (pyStrip (it.back.getD [])), text := none,
             topic := if topicAware ∧ pyStrip (it.topic.getD []) ≠ []
                      then some (pyStrip (it.topic.getD [])) else none }
    else none
  else none

/-- `_validate(cards, topic_aware)` from generator.py. -/
def validate (topicAware : Bool) (items : List Item) : List Card :=
  items.filterMap (validateItem topicAware)

theorem hasMarker_ne_nil {s : Str} (h : hasMarker s = true) : s ≠ [] := by
  cases s with
  | nil => exact absurd h (by decide)
  | cons c cs => simp

theorem validate_single (tA : Bool) (it : Item) :
    validate tA [it] = (validateItem tA it).toList := by
  cases h : validateItem tA it <;> simp [validate, List.filterMap_cons, h]

/-- C5 (counterexample) — an item that declares `type: "cloze"`, whose text
lacks a blank marker, and which has non-empty front and back, is discarded
by `_validate`, not kept as a Q/A card as the claim states. -/
theorem validate_counterexample :
    validate false
        [⟨some "cloze".data, some "no marker here".data,
          some "What is the capital of France?".data,
          some "Paris is the capital".data, none⟩] = [] ∧
      pyStrip ("What is the capital of France?".data) ≠ [] ∧
      pyStrip ("Paris is the capital".data) ≠ [] ∧
      hasMarker (pyStrip ("no marker here".data)) = false := by
  refine ⟨?_, ?_, ?_, ?_⟩ <;> decide

/-- C5 (amended) — per-item classification of `_validate`: an item enters
the cloze branch iff it declares an explicit cloze type OR has a `"text"`
field and no `"front"` field; such an item becomes a cloze card iff its
trimmed text contains the blank-marker opener `"\x7b\x7bc"` and is otherwise
discarded — it is never reconsidered as a Q/A card, even with non-empty
front and back.  An item not entering the cloze branch becomes a Q/A card
iff it has both `"front"` and `"back"` keys with non-empty trimmed values,
and is otherwise discarded. -/
theorem validate_classification (it : Item) (tA : Bool) :
    ((it.type.getD [] = "cloze".data ∨ (it.text.isSome ∧ it.front = none)) →
      (hasMarker (pyStrip (it.text.getD [])) = true →
        ∃ c, validate tA [it] = [c] ∧ c.text = some (pyStrip (it.text.getD [])) ∧
          c.front = none ∧ c.back = none) ∧
      (hasMarker (pyStrip (it.text.getD [])) = false → validate tA [it] = [])) ∧
    (¬(it.type.getD [] = "cloze".data ∨ (it.text.isSome ∧ it.front = none)) →
      (it.front.isSome ∧ it.back.isSome ∧ pyStrip (it.front.getD []) ≠ [] ∧
          pyStrip (it.back.getD []) ≠ [] →
        ∃ c, validate tA [it] = [c] ∧ c.front = some (pyStrip (it.front.getD [])) ∧
          c.back = some (pyStrip (it.back.getD [])) ∧ c.text = none) ∧
      (¬(it.front.isSome ∧ it.back.isSome ∧ pyStrip (it.front.getD []) ≠ [] ∧
          pyStrip (it.back.getD []) ≠ []) → validate tA [it] = [])) := by
  constructor
  · intro hcond
    constructor
    · intro hmark
      refine ⟨⟨none, none, some (pyStrip (it.text.getD [])),
        if tA ∧ pyStrip (it.topic.getD []) ≠ []
        then some (pyStrip (it.topic.getD [])) else none⟩, ?_, rfl, rfl, rfl⟩
      rw [validate_single, validateItem, if_pos hcond,
        if_pos ⟨hasMarker_ne_nil hmark, hmark⟩]
      rfl
    · intro hmark
      rw [validate_single, validateItem, if_pos hcond]
      by_cases hne : pyStrip (it.text.getD []) ≠ [] ∧ hasMarker (pyStrip (it.text.getD [])) = true
      · rw [hmark] at hne; exact absurd hne.2 (by simp)
      · rw [if_neg hne]; rfl
  · intro hcond
    constructor
    · intro ⟨hf, hb, hfne, hbne⟩
      refine ⟨⟨some (pyStrip (it.front.getD [])), some (pyStrip (it.back.getD [])), none,
        if tA ∧ pyStrip (it.topic.getD []) ≠ []
        then some (pyStrip (it.topic.getD [])) else none⟩, ?_, rfl, rfl, rfl⟩
      rw [validate_single, validateItem, if_neg hcond, if_pos ⟨hf, hb⟩, if_pos ⟨hfne, hbne⟩]
      rfl
    · intro hno
      rw [validate_single, validateItem, if_neg hcond]
      by_cases hfb : it.front.isSome ∧ it.back.isSome
      · rw [if_pos hfb]
        by_cases hne : pyStrip (it.front.getD []) ≠ [] ∧ pyStrip (it.back.getD []) ≠ []
        · exact absurd ⟨hfb.1, hfb.2, hne.1, hne.2⟩ hno
        · rw [if_neg hne]; rfl
      · rw [if_neg hfb]; rfl

-- ---------------------------------------------------------------------------
-- src/pipeline/extractor.py — `_clean_text`
-- ---------------------------------------------------------------------------

/-- `text.replace("\r\n", "\n")`: non-overlapping, left to right. -/
def replCRLF : Str → Str
  | [] => []
  | [c] => [c]
  | c :: d :: cs =>
    if c = '\r' ∧ d = '\n' then '\n' :: replCRLF cs
    else c :: replCRLF (d :: cs)

/-- `text.replace("\r", "\n")`. -/
def replCR (s : Str) : Str := s.map (fun c => if c = '\r' then '\n' else c)

/-- The part of a whitespace run after its last newline. -/
def afterLastNl (ws : Str) : Str :=
  (ws.reverse.takeWhile (fun c => c != '\n')).reverse

/-- Trailing `\s*$` of the page-number pattern, applied after the digits:
`ws2` is the maximal whitespace run after the digits and `r3` the rest of
the string.  Greedy matching with backtracking stops at the largest
position where `$` holds — the end of the string when `r3` is empty,
otherwise the last newline inside `ws2` (no match if there is none).
Returns the suffix after the match and whether the character before the
continuation position is a newline (i.e. whether `^` holds there). -/
def tdmTail (ws2 r3 : Str) : Option (Str × Bool) :=
  if r3 = [] then some ([], true)
  else if (afterLastNl ws2).length = ws2.length then none
  else
    some ('\n' :: (afterLastNl ws2 ++ r3),
      (ws2.take (ws2.length - (afterLastNl ws2).length - 1)).getLast? == some '\n')

/-- Try to match `^\s*\d{1,4}\s*$` (MULTILINE) at the current position,
which is a line start.  The leading `\s*` is forced to the maximal
whitespace run (a shorter run leaves `\d` at a whitespace character) and
`\d{1,4}` to the maximal digit run (a shorter run leaves the next
position at a digit where neither `\s` nor `$` holds), which must have
length 1–4. -/
def tryDigitMatch (s : Str) : Option (Str × Bool) :=
  if ((s.dropWhile isPySpace).takeWhile Char.isDigit).length < 1 ∨
      4 < ((s.dropWhile isPySpace).takeWhile Char.isDigit).length then none
  else
    tdmTail (((s.dropWhile isPySpace).dropWhile Char.isDigit).takeWhile isPySpace)
      (((s.dropWhile isPySpace).dropWhile Char.isDigit).dropWhile isPySpace)

/-- The scan of `re.sub(r"^\s*\d{1,4}\s*$", "", text, flags=re.MULTILINE)`:
try a match at every line-start position, otherwise copy one character.
Every match consumes at least one character (a digit), so `s.length` fuel
always suffices and the fuel-exhausted branch is unreachable; fuel keeps
the recursion structural. -/
def sdlGo : Nat → Bool → Str → Str
  | 0, _, s => s
  | _ + 1, _, [] => []
  | fuel + 1, atStart, c :: cs =>
    if atStart then
      match tryDigitMatch (c :: cs) with
      | some (rest, lastNl) => sdlGo fuel lastNl rest
      | none => c :: sdlGo fuel (c == '\n') cs
    else c :: sdlGo fuel (c == '\n') cs

def stripDigitLines (s : Str) : Str := sdlGo s.length true s

/-- Replacement for a finished newline run: `\n{3,}` becomes `"\n\n"`,
shorter runs are kept. -/
def nlFlush (k : Nat) : Str := if 3 ≤ k then ['\n', '\n'] else List.replicate k '\n'

/-- Worker for `re.sub(r"\n{3,}", "\n\n", text)`; `k` counts the pending
newline run. -/
def collapseNlGo : Nat → Str → Str
  | k, [] => nlFlush k
  | k, c :: cs => if c = '\n' then collapseNlGo (k + 1) cs else nlFlush k ++ c :: collapseNlGo 0 cs

def collapseNl (s : Str) : Str := collapseNlGo 0 s

/-- The character class `[ \t]`. -/
def isHWs (c : Char) : Bool := c == ' ' || c == '\t'

/-- Replacement for a finished `[ \t]` run: `[ \t]{2,}` becomes a single
space, a lone space or tab is kept as is. -/
def spFlush (run : Str) : Str := if 2 ≤ run.length then [' '] else run

/-- Worker for `re.sub(r"[ \t]{2,}", " ", text)`; `run` holds the pending
horizontal-whitespace run. -/
def collapseSpGo : Str → Str → Str
  | run, [] => spFlush run
  | run, c :: cs =>
    if isHWs c then collapseSpGo (run ++ [c]) cs
    else spFlush run ++ c :: collapseSpGo [] cs

def collapseSp (s : Str) : Str := collapseSpGo [] s

/-- The character class `[a-zäöüß]` of the de-hyphenation regex — a fixed
set, not locale-aware lowercase. -/
def lowFixed (c : Char) : Bool :=
  (decide ('a' ≤ c) && decide (c ≤ 'z')) || c == 'ä' || c == 'ö' || c == 'ü' || c == 'ß'

/-- `re.sub(r"-\n([a-zäöüß])", r"\1", text)`: replace each match by its
captured letter; scanning continues after the match. -/
def dehyph : Str → Str
  | [] => []
  | c :: cs =>
    if c = '-' then
      match cs with
      | '\n' :: d :: rest =>
        if lowFixed d then d :: dehyph rest
        -- no match: the hyphen is copied and scanning resumes at the
        -- newline, which cannot itself start a match ('\n' is not '-'),
        -- so it is copied as well
        else c :: '\n' :: dehyph (d :: rest)
      | cs2 => c :: dehyph cs2
    else c :: dehyph cs

/-- `_clean_text(text)` from extractor.py (mirrored verbatim by
`_clean_ocr_text` in ocr_extractor.py): normalize line endings, delete
page-number lines, collapse newline runs, collapse horizontal whitespace,
de-hyphenate, strip. -/
def clean_text (s : Str) : Str :=
  pyStrip (dehyph (collapseSp (collapseNl (stripDigitLines (replCR (replCRLF s))))))

-- ---------------------------------------------------------------------------
-- Identity lemmas for inputs that do not trigger the earlier stages
-- ---------------------------------------------------------------------------

theorem takeWhile_head {p : Char → Bool} :
    ∀ (l : Str) (d : Char) (ds : Str), l.takeWhile p = d :: ds → p d = true ∧ d ∈ l := by
  intro l
  induction l with
  | nil => intro d ds h; simp [List.takeWhile] at h
  | cons c cs _ =>
    intro d ds h
    rw [List.takeWhile_cons] at h
    cases hc : p c with
    | true =>
      rw [hc] at h
      simp at h
      exact ⟨h.1 ▸ hc, by simp [h.1]⟩
    | false => rw [hc] at h; simp at h

theorem replCRLF_id : ∀ (s : Str), (∀ c ∈ s, c ≠ '\r') → replCRLF s = s := by
  intro s
  induction s with
  | nil => intro _; rfl
  | cons c cs ih =>
    intro h
    cases cs with
    | nil => rfl
    | cons d cs2 =>
      have hc : c ≠ '\r' := h c (by simp)
      simp only [replCRLF]
      rw [if_neg (fun hcd => hc hcd.1)]
      exact congrArg _ (ih fun x hx => h x (List.mem_cons_of_mem _ hx))

theorem replCR_id : ∀ (s : Str), (∀ c ∈ s, c ≠ '\r') → replCR s = s := by
  intro s
  induction s with
  | nil => intro _; rfl
  | cons c cs ih =>
    intro h
    simp only [replCR, List.map_cons]
    rw [if_neg (h c (by simp))]
    exact congrArg _ (ih fun x hx => h x (List.mem_cons_of_mem _ hx))

theorem tryDigitMatch_none (s : Str) (h : ∀ c ∈ s, c.isDigit = false) :
    tryDigitMatch s = none := by
  have hds : (s.dropWhile isPySpace).takeWhile Char.isDigit = [] := by
    cases hh : (s.dropWhile isPySpace).takeWhile Char.isDigit with
    | nil => rfl
    | cons d ds =>
      obtain ⟨hd, hmem⟩ := takeWhile_head _ d ds hh
      have : d ∈ s := (List.dropWhile_suffix isPySpace).subset hmem
      rw [h d this] at hd
      exact absurd hd (by simp)
  unfold tryDigitMatch
  rw [if_pos (Or.inl (by rw [hds]; decide))]

theorem sdlGo_id : ∀ (s : Str), (∀ c ∈ s, c.isDigit = false) →
    ∀ (fuel : Nat) (atStart : Bool), sdlGo fuel atStart s = s := by
  intro s
  induction s with
  | nil => intro _ fuel atStart; cases fuel <;> rfl
  | cons c cs ih =>
    intro h fuel atStart
    cases fuel with
    | zero => rfl
    | succ f =>
      have hrest := ih (fun x hx => h x (List.mem_cons_of_mem _ hx)) f (c == '\n')
      simp only [sdlGo]
      by_cases ha : atStart = true
      · rw [if_pos ha, tryDigitMatch_none _ h]
        exact congrArg _ hrest
      · rw [if_neg ha]
        exact congrArg _ hrest

theorem stripDigitLines_id (s : Str) (h : ∀ c ∈ s, c.isDigit = false) :
    stripDigitLines s = s :=
  sdlGo_id s h s.length true

theorem collapseNlGo_nonl : ∀ (a : Str), (∀ d ∈ a, d ≠ '\n') →
    ∀ rest, collapseNlGo 0 (a ++ rest) = a ++ collapseNlGo 0 rest := by
  intro a
  induction a with
  | nil => intro _ rest; rfl
  | cons c cs ih =>
    intro h rest
    have hc : c ≠ '\n' := h c (by simp)
    have ihr := ih (fun x hx => h x (List.mem_cons_of_mem _ hx)) rest
    show collapseNlGo 0 (c :: (cs ++ rest)) = c :: (cs ++ collapseNlGo 0 rest)
    rw [collapseNlGo, if_neg hc, ihr]
    rfl

theorem collapseNlGo_nl_id (v : Str) (hv : ∀ d ∈ v, d ≠ '\n') :
    collapseNlGo 0 v = v := by
  have h := collapseNlGo_nonl v hv []
  rw [List.append_nil] at h
  rw [h]
  show v ++ ([] : Str) = v
  exact List.append_nil v

theorem collapseNl_isolated (u v : Str) (c : Char)
    (hu : ∀ d ∈ u, d ≠ '\n') (hv : ∀ d ∈ v, d ≠ '\n') (hc : c ≠ '\n') :
    collapseNl (u ++ '\n' :: c :: v) = u ++ '\n' :: c :: v := by
  unfold collapseNl
  rw [collapseNlGo_nonl u hu]
  congr 1
  show collapseNlGo 0 ('\n' :: c :: v) = '\n' :: c :: v
  rw [collapseNlGo, if_pos rfl, collapseNlGo, if_neg hc, collapseNlGo_nl_id v hv]
  rfl

theorem collapseSpGo_id : ∀ (s : Str), (∀ d ∈ s, isHWs d = false) →
    collapseSpGo [] s = s := by
  intro s
  induction s with
  | nil => intro _; rfl
  | cons c cs ih =>
    intro h
    simp only [collapseSpGo]
    rw [if_neg (by simp [h c (List.mem_cons_self c cs)])]
    show spFlush [] ++ c :: collapseSpGo [] cs = c :: cs
    rw [ih fun x hx => h x (List.mem_cons_of_mem _ hx)]
    rfl

theorem dehyph_cons_nondash (c : Char) (cs : Str) (hc : ¬(c = '-')) :
    dehyph (c :: cs) = c :: dehyph cs := by
  rcases cs with _ | ⟨e, _ | ⟨d, rest⟩⟩
  · rw [dehyph.eq_3 _ _ (by rintro d rest h; exact absurd h (by simp)), if_neg hc]
  · rw [dehyph.eq_3 _ _ (by rintro d rest h; simp at h), if_neg hc]
  · by_cases he : e = '\n'
    · subst he
      rw [dehyph.eq_2, if_neg hc]
    · rw [dehyph.eq_3 _ _ (by rintro d2 rest2 h; injection h with h1 _; exact he h1),
        if_neg hc]

theorem dehyph_nondash : ∀ (a : Str), (∀ d ∈ a, d ≠ '-') →
    ∀ t, dehyph (a ++ t) = a ++ dehyph t := by
  intro a
  induction a with
  | nil => intro _ t; rfl
  | cons c cs ih =>
    intro h t
    have hc : c ≠ '-' := h c (by simp)
    have ihr := ih (fun x hx => h x (List.mem_cons_of_mem _ hx)) t
    show dehyph (c :: (cs ++ t)) = c :: (cs ++ dehyph t)
    rw [dehyph_cons_nondash c _ hc, ihr]

theorem dehyph_id (a : Str) (h : ∀ d ∈ a, d ≠ '-') : dehyph a = a := by
  have h0 : dehyph ([] : Str) = [] := rfl
  have h1 := dehyph_nondash a h []
  rw [h0, List.append_nil] at h1
  exact h1

theorem dehyph_at_hyphen (c : Char) (v : Str) :
    dehyph ('-' :: '\n' :: c :: v) =
      if lowFixed c then c :: dehyph v else '-' :: '\n' :: dehyph (c :: v) := by
  rfl

theorem pyStrip_eq_self (hd lc : Char) (s : Str) (hh : s.head? = some hd)
    (hhs : isPySpace hd = false) (hl : s.getLast? = some lc) (hls : isPySpace lc = false) :
    pyStrip s = s := by
  cases s with
  | nil => simp at hh
  | cons a t =>
    have ha : a = hd := by simpa using hh
    have hhs2 : isPySpace a = false := by rw [ha]; exact hhs
    have h1 : (a :: t).dropWhile isPySpace = a :: t := pyDrop_cons_false hhs2 t
    have h2 : ((a :: t).reverse).dropWhile isPySpace = (a :: t).reverse := by
      cases hr : (a :: t).reverse with
      | nil => simp at hr
      | cons b r =>
        have hb : b = lc := by
          have hx : (a :: t).reverse.head? = some b := by rw [hr]; rfl
          rw [List.head?_reverse, hl] at hx
          exact (Option.some.inj hx).symm
        subst hb
        exact pyDrop_cons_false hls r
    unfold pyStrip
    rw [h1, h2, List.reverse_reverse]

-- ---------------------------------------------------------------------------
-- C9 — de-hyphenation
-- ---------------------------------------------------------------------------

/-- C9 (counterexample) — the de-hyphenation character class is the fixed
set `[a-zäöüß]`, not locale-aware lowercase: for the input `"ab-\néf"`,
whose hyphen-newline is followed by the lowercase letter `é`, the
normalizer leaves the string unchanged instead of rejoining to `"abéf"`. -/
theorem clean_text_counterexample :
    clean_text "ab-\néf".data = "ab-\néf".data ∧
      clean_text "ab-\néf".data ≠ "abéf".data ∧ lowFixed 'é' = false := by
  refine ⟨?_, ?_, ?_⟩ <;> decide

/-- A character that triggers none of the other normalization stages:
not whitespace, not a digit, not a hyphen, not a carriage return. -/
def plainChar (c : Char) : Prop :=
  isPySpace c = false ∧ c.isDigit = false ∧ c ≠ '-' ∧ c ≠ '\r'

instance (c : Char) : Decidable (plainChar c) :=
  decidable_of_iff (isPySpace c = false ∧ c.isDigit = false ∧ c ≠ '-' ∧ c ≠ '\r') Iff.rfl

/-- C9 (amended) — `_clean_text` rejoins a word split by a trailing hyphen
immediately before a newline exactly when the letter after the newline is
in the fixed set a–z, ä, ö, ü, ß (`lowFixed`); other lowercase letters
(such as `é`) are not rejoined.  Stated on inputs whose surrounding
characters do not trigger the other stages. -/
theorem clean_text_dehyphenation (u v : Str) (c : Char)
    (hu : u ≠ []) (hv : v ≠ [])
    (hall : ∀ d ∈ u ++ v, plainChar d) (hc : plainChar c) :
    clean_text (u ++ '-' :: '\n' :: c :: v) =
      if lowFixed c then u ++ c :: v else u ++ '-' :: '\n' :: c :: v := by
  have hup : ∀ d ∈ u, plainChar d := fun d hd => hall d (List.mem_append_left _ hd)
  have hvp : ∀ d ∈ v, plainChar d := fun d hd => hall d (List.mem_append_right _ hd)
  have hmem : ∀ d ∈ u ++ '-' :: '\n' :: c :: v,
      d ∈ u ∨ d = '-' ∨ d = '\n' ∨ d = c ∨ d ∈ v := by
    intro d hd
    rcases List.mem_append.1 hd with hd | hd
    · exact Or.inl hd
    · rcases List.mem_cons.1 hd with rfl | hd
      · exact Or.inr (Or.inl rfl)
      rcases List.mem_cons.1 hd with rfl | hd
      · exact Or.inr (Or.inr (Or.inl rfl))
      rcases List.mem_cons.1 hd with rfl | hd
      · exact Or.inr (Or.inr (Or.inr (Or.inl rfl)))
      · exact Or.inr (Or.inr (Or.inr (Or.inr hd)))
  have hnor : ∀ d ∈ u ++ '-' :: '\n' :: c :: v, d ≠ '\r' := by
    intro d hd
    rcases hmem d hd with h | h | h | h | h
    · exact (hup d h).2.2.2
    · subst h; decide
    · subst h; decide
    · subst h; exact hc.2.2.2
    · exact (hvp d h).2.2.2
  have hnod : ∀ d ∈ u ++ '-' :: '\n' :: c :: v, d.isDigit = false := by
    intro d hd
    rcases hmem d hd with h | h | h | h | h
    · exact (hup d h).2.1
    · subst h; decide
    · subst h; decide
    · subst h; exact hc.2.1
    · exact (hvp d h).2.1
  have hnoh : ∀ d ∈ u ++ '-' :: '\n' :: c :: v, isHWs d = false := by
    intro d hd
    have key : ∀ e : Char, isPySpace e = false → isHWs e = false := by
      intro e he
      cases hw : isHWs e with
      | false => rfl
      | true =>
        exfalso
        rcases Bool.or_eq_true_iff.1 hw with h1 | h1 <;>
          · rw [isPySpace] at he
            simp_all
    rcases hmem d hd with h | h | h | h | h
    · exact key d (hup d h).1
    · subst h; decide
    · subst h; decide
    · subst h; exact key _ hc.1
    · exact key d (hvp d h).1
  have s1 : replCRLF (u ++ '-' :: '\n' :: c :: v) = u ++ '-' :: '\n' :: c :: v :=
    replCRLF_id _ hnor
  have s2 : replCR (u ++ '-' :: '\n' :: c :: v) = u ++ '-' :: '\n' :: c :: v := by
    refine replCR_id _ hnor
  have s3 : stripDigitLines (u ++ '-' :: '\n' :: c :: v) = u ++ '-' :: '\n' :: c :: v :=
    stripDigitLines_id _ hnod
  have s4 : collapseNl (u ++ '-' :: '\n' :: c :: v) = u ++ '-' :: '\n' :: c :: v := by
    have := collapseNl_isolated (u ++ ['-']) v c
      (by
        intro d hd
        rcases List.mem_append.1 hd with h | h
        · exact fun he => by
            have := (hup d h).1
            subst he
            exact absurd this (by decide)
        · simp at h; subst h; decide)
      (by
        intro d hd
        exact fun he => by
          have := (hvp d hd).1
          subst he
          exact absurd this (by decide))
      (by
        intro he
        have := hc.1
        subst he
        exact absurd this (by decide))
    simpa [List.append_assoc] using this
  have s5 : collapseSp (u ++ '-' :: '\n' :: c :: v) = u ++ '-' :: '\n' :: c :: v :=
    collapseSpGo_id _ hnoh
  have hudash : ∀ d ∈ u, d ≠ '-' := fun d hd => (hup d hd).2.2.1
  have hvd : ∀ d ∈ c :: v, d ≠ '-' := by
    intro d hd
    rcases List.mem_cons.1 hd with rfl | hd
    · exact hc.2.2.1
    · exact (hvp d hd).2.2.1
  have s6 : dehyph (u ++ '-' :: '\n' :: c :: v) =
      if lowFixed c then u ++ c :: v else u ++ '-' :: '\n' :: c :: v := by
    rw [dehyph_nondash u hudash, dehyph_at_hyphen]
    by_cases hlf : lowFixed c = true
    · rw [if_pos hlf, if_pos hlf,
        dehyph_id v (fun d hd => (hvp d hd).2.2.1)]
    · rw [if_neg hlf, if_neg hlf, dehyph_id _ hvd]
  obtain ⟨uh, ut, rfl⟩ : ∃ uh ut, u = uh :: ut := by
    cases u with
    | nil => exact absurd rfl hu
    | cons a b => exact ⟨a, b, rfl⟩
  obtain ⟨vi, vl, rfl⟩ : ∃ vi vl, v = vi ++ [vl] := by
    rcases List.eq_nil_or_concat v with h | ⟨vi, vl, h⟩
    · exact absurd h hv
    · exact ⟨vi, vl, by simpa [List.concat_eq_append] using h⟩
  have hvl : isPySpace vl = false := (hvp vl (by simp)).1
  have huh : isPySpace uh = false := (hup uh (by simp)).1
  show clean_text _ = _
  unfold clean_text
  rw [s1, s2, s3, s4, s5, s6]
  by_cases hlf : lowFixed c = true
  · rw [if_pos hlf]
    refine pyStrip_eq_self uh vl _ (by simp) huh ?_ hvl
    rw [show (uh :: ut) ++ c :: (vi ++ [vl]) = ((uh :: ut) ++ c :: vi) ++ vl :: [] by simp,
      List.getLast?_append_cons]
    rfl
  · rw [if_neg hlf]
    refine pyStrip_eq_self uh vl _ (by simp) huh ?_ hvl
    rw [show (uh :: ut) ++ '-' :: '\n' :: c :: (vi ++ [vl])
          = ((uh :: ut) ++ '-' :: '\n' :: c :: vi) ++ vl :: [] by simp,
      List.getLast?_append_cons]
    rfl

/-- Witness for C9's amended theorem on a concrete input with a letter in
the fixed class. -/
theorem clean_text_dehyphenation_witness :
    clean_text ("ab".data ++ '-' :: '\n' :: 'f' :: "g".data) =
      if lowFixed 'f' then "ab".data ++ 'f' :: "g".data
      else "ab".data ++ '-' :: '\n' :: 'f' :: "g".data :=
  clean_text_dehyphenation "ab".data "g".data 'f'
    (by decide) (by decide) (by decide) (by decide)

/-- Witness for C5's amended theorem: a well-formed explicit cloze item. -/
theorem validate_classification_witness :
    ∃ c, validate false
        [⟨some "cloze".data, some "Foo \x7b\x7bc1::bar\x7d\x7d baz is long".data,
          none, none, none⟩] = [c] ∧
      c.text = some (pyStrip ("Foo \x7b\x7bc1::bar\x7d\x7d baz is long".data)) ∧
      c.front = none ∧ c.back = none :=
  ((validate_classification
      ⟨some "cloze".data, some "Foo \x7b\x7bc1::bar\x7d\x7d baz is long".data,
        none, none, none⟩ false).1
    (Or.inl (by decide))).1 (by decide)

-- ---------------------------------------------------------------------------
-- src/pipeline/ocr_extractor.py — `_assemble_text`
-- ---------------------------------------------------------------------------

/-- An EasyOCR detection `(bbox, text, confidence)`; pixel coordinates are
modelled as exact rationals (`0.6` below is the exact rational 3/5; no
statement proved here sits on the float-rounding boundary). -/
structure Detection where
  bbox : List (ℚ × ℚ)
  text : Str
  conf : ℚ
deriving DecidableEq, Repr

/-- `min(pt[0] for pt in bbox)` (a bbox always has four points; the
never-occurring empty case yields 0). -/
def minX (pts : List (ℚ × ℚ)) : ℚ :=
  match pts with
  | [] => 0
  | p :: ps => ps.foldl (fun a q => min a q.1) p.1

/-- `min(pt[1] for pt in bbox)`. -/
def minY (pts : List (ℚ × ℚ)) : ℚ :=
  match pts with
  | [] => 0
  | p :: ps => ps.foldl (fun a q => min a q.2) p.2

/-- `max(pt[1] for pt in bbox)`. -/
def maxY (pts : List (ℚ × ℚ)) : ℚ :=
  match pts with
  | [] => 0
  | p :: ps => ps.foldl (fun a q => max a q.2) p.2

/-- The item dict `{"x", "y", "h", "text"}` built for each detection. -/
structure OItem where
  x : ℚ
  y : ℚ
  h : ℚ
  text : Str
deriving DecidableEq, Repr

def toOItem (d : Detection) : OItem :=
  { x := minX d.bbox, y := minY d.bbox, h := maxY d.bbox - minY d.bbox, text := d.text }

/-- Stable insertion by `y` (an element is placed before the first element
with a strictly larger key, after equal keys of earlier elements). -/
def insertByY (a : OItem) : List OItem → List OItem
  | [] => [a]
  | b :: bs => if a.y ≤ b.y then a :: b :: bs else b :: insertByY a bs

/-- `items.sort(key=lambda d: d["y"])` — Python's sort is stable, and
insertion sort processed from the right is the stable sort. -/
def sortByY : List OItem → List OItem
  | [] => []
  | a :: as => insertByY a (sortByY as)

def insertByX (a : OItem) : List OItem → List OItem
  | [] => [a]
  | b :: bs => if a.x ≤ b.x then a :: b :: bs else b :: insertByX a bs

/-- `line.sort(key=lambda d: d["x"])`. -/
def sortByX : List OItem → List OItem
  | [] => []
  | a :: as => insertByX a (sortByX as)

/-- The visual-line grouping loop; `cur` holds the current line in reverse
(most recently appended first, matching `current[-1]`), and is always
non-empty (the `[]` case is unreachable). -/
def groupGo : List OItem → List OItem → List (List OItem)
  | cur, [] => [cur.reverse]
  | cur, it :: rest =>
    match cur with
    | [] => groupGo [it] rest
    | last :: _ =>
      if |it.y - last.y| < max last.h 1 * (3/5 : ℚ) then groupGo (it :: cur) rest
      else cur.reverse :: groupGo [it] rest

/-- Python `" ".join(texts)`. -/
def joinSp : List Str → Str
  | [] => []
  | [t] => t
  | t :: ts => t ++ ' ' :: joinSp ts

/-- Python `"\n".join(texts)`. -/
def joinNL : List Str → Str
  | [] => []
  | [t] => t
  | t :: ts => t ++ '\n' :: joinNL ts

/-- `_assemble_text(detections)` from ocr_extractor.py: build items, sort
top-to-bottom, group into visual lines by the 0.6-line-height band, sort
each line left-to-right, join lines with spaces and the page with
newlines.  Zero detections yield the empty string. -/
def assemble_text (ds : List Detection) : Str :=
  match sortByY (ds.map toOItem) with
  | [] => []
  | first :: rest =>
    joinNL ((groupGo [first] rest).map (fun line => joinSp ((sortByX line).map OItem.text)))

theorem insertByY_le (a b : OItem) (bs : List OItem) (h : a.y ≤ b.y) :
    insertByY a (b :: bs) = a :: b :: bs := by
  rw [insertByY, if_pos h]

theorem insertByY_gt (a b : OItem) (bs : List OItem) (h : ¬(a.y ≤ b.y)) :
    insertByY a (b :: bs) = b :: insertByY a bs := by
  rw [insertByY, if_neg h]

theorem insertByX_le (a b : OItem) (bs : List OItem) (h : a.x ≤ b.x) :
    insertByX a (b :: bs) = a :: b :: bs := by
  rw [insertByX, if_pos h]

theorem insertByX_gt (a b : OItem) (bs : List OItem) (h : ¬(a.x ≤ b.x)) :
    insertByX a (b :: bs) = b :: insertByX a bs := by
  rw [insertByX, if_neg h]

theorem groupGo_three (a b c : OItem)
    (hab : |b.y - a.y| < max a.h 1 * (3/5 : ℚ))
    (hbc : ¬(|c.y - b.y| < max b.h 1 * (3/5 : ℚ))) :
    groupGo [a] [b, c] = [[a, b], [c]] := by
  rw [groupGo]
  rw [if_pos hab, groupGo]
  rw [if_neg hbc]
  rfl

/-- C10 — Assembler reading order: three detections "Left" and "Right" at
y = 0 (Right's x exceeding Left's) and "Below" at y = 100, presented in
any input order, assemble to `"Left Right\nBelow"` whenever 100 is at
least 0.6 times the (max with 1 of the) heights of the y = 0 detections;
and zero detections assemble to the empty string. -/
theorem assemble_reading_order (dL dR dB : Detection) (ds : List Detection)
    (hds : ds = [dL, dR, dB] ∨ ds = [dL, dB, dR] ∨ ds = [dR, dL, dB] ∨
      ds = [dR, dB, dL] ∨ ds = [dB, dL, dR] ∨ ds = [dB, dR, dL])
    (hLt : dL.text = "Left".data) (hRt : dR.text = "Right".data)
    (hBt : dB.text = "Below".data)
    (hLy : minY dL.bbox = 0) (hRy : minY dR.bbox = 0) (hBy : minY dB.bbox = 100)
    (hx : minX dL.bbox < minX dR.bbox)
    (hhL : max (maxY dL.bbox - minY dL.bbox) 1 * (3/5 : ℚ) ≤ 100)
    (hhR : max (maxY dR.bbox - minY dR.bbox) 1 * (3/5 : ℚ) ≤ 100) :
    assemble_text ds = "Left Right\nBelow".data ∧ assemble_text [] = [] := by
  refine ⟨?_, rfl⟩
  set iL := toOItem dL with hiL
  set iR := toOItem dR with hiR
  set iB := toOItem dB with hiB
  have hiLy : iL.y = 0 := hLy
  have hiRy : iR.y = 0 := hRy
  have hiBy : iB.y = 100 := hBy
  have hiLt : iL.text = "Left".data := hLt
  have hiRt : iR.text = "Right".data := hRt
  have hiBt : iB.text = "Below".data := hBt
  have hposL : (0 : ℚ) < max iL.h 1 * (3/5 : ℚ) :=
    mul_pos (lt_of_lt_of_le one_pos (le_max_right _ _)) (by norm_num)
  have hposR : (0 : ℚ) < max iR.h 1 * (3/5 : ℚ) :=
    mul_pos (lt_of_lt_of_le one_pos (le_max_right _ _)) (by norm_num)
  have hgroupL : groupGo [iL] [iR, iB] = [[iL, iR], [iB]] := by
    refine groupGo_three iL iR iB ?_ ?_
    · rw [hiRy, hiLy, show |(0 : ℚ) - 0| = 0 by norm_num]
      exact hposL
    · rw [hiBy, hiRy, not_lt, show |(100 : ℚ) - 0| = 100 by norm_num]
      exact hhR
  have hgroupR : groupGo [iR] [iL, iB] = [[iR, iL], [iB]] := by
    refine groupGo_three iR iL iB ?_ ?_
    · rw [hiRy, hiLy, show |(0 : ℚ) - 0| = 0 by norm_num]
      exact hposR
    · rw [hiBy, hiLy, not_lt, show |(100 : ℚ) - 0| = 100 by norm_num]
      exact hhL
  have hxLR : iL.x ≤ iR.x := le_of_lt hx
  have hxRL : ¬(iR.x ≤ iL.x) := not_le.2 hx
  have hsxLR : sortByX [iL, iR] = [iL, iR] := by
    show insertByX iL (insertByX iR (sortByX [])) = [iL, iR]
    rw [sortByX, insertByX, insertByX_le _ _ _ hxLR]
  have hsxRL : sortByX [iR, iL] = [iL, iR] := by
    show insertByX iR (insertByX iL (sortByX [])) = [iL, iR]
    rw [sortByX, insertByX, insertByX_gt _ _ _ hxRL, insertByX]
  have hfinL : joinNL ([[iL, iR], [iB]].map
      (fun line => joinSp ((sortByX line).map OItem.text))) = "Left Right\nBelow".data := by
    show joinNL [joinSp ((sortByX [iL, iR]).map OItem.text),
        joinSp ((sortByX [iB]).map OItem.text)] = _
    rw [hsxLR]
    show joinNL [joinSp [iL.text, iR.text], joinSp [iB.text]] = _
    rw [hiLt, hiRt, hiBt]
    rfl
  have hfinR : joinNL ([[iR, iL], [iB]].map
      (fun line => joinSp ((sortByX line).map OItem.text))) = "Left Right\nBelow".data := by
    show joinNL [joinSp ((sortByX [iR, iL]).map OItem.text),
        joinSp ((sortByX [iB]).map OItem.text)] = _
    rw [hsxRL]
    show joinNL [joinSp [iL.text, iR.text], joinSp [iB.text]] = _
    rw [hiLt, hiRt, hiBt]
    rfl
  have hy01 : iL.y ≤ iR.y := by rw [hiLy, hiRy]
  have hy0B : iL.y ≤ iB.y := by rw [hiLy, hiBy]; norm_num
  have hyR0 : iR.y ≤ iL.y := by rw [hiLy, hiRy]
  have hyRB : iR.y ≤ iB.y := by rw [hiRy, hiBy]; norm_num
  have hyB0 : ¬(iB.y ≤ iL.y) := by rw [hiLy, hiBy]; norm_num
  have hyBR : ¬(iB.y ≤ iR.y) := by rw [hiRy, hiBy]; norm_num
  rcases hds with rfl | rfl | rfl | rfl | rfl | rfl
  · have hsy : sortByY ([dL, dR, dB].map toOItem) = [iL, iR, iB] := by
      show insertByY iL (insertByY iR (insertByY iB [])) = [iL, iR, iB]
      rw [insertByY, insertByY_le _ _ _ hyRB, insertByY_le _ _ _ hy01]
    rw [assemble_text, hsy]
    show joinNL ((groupGo [iL] [iR, iB]).map
      (fun line => joinSp ((sortByX line).map OItem.text))) = _
    rw [hgroupL]
    exact hfinL
  · have hsy : sortByY ([dL, dB, dR].map toOItem) = [iL, iR, iB] := by
      show insertByY iL (insertByY iB (insertByY iR [])) = [iL, iR, iB]
      rw [insertByY, insertByY_gt _ _ _ hyBR, insertByY, insertByY_le _ _ _ hy01]
    rw [assemble_text, hsy]
    show joinNL ((groupGo [iL] [iR, iB]).map
      (fun line => joinSp ((sortByX line).map OItem.text))) = _
    rw [hgroupL]
    exact hfinL
  · have hsy : sortByY ([dR, dL, dB].map toOItem) = [iR, iL, iB] := by
      show insertByY iR (insertByY iL (insertByY iB [])) = [iR, iL, iB]
      rw [insertByY, insertByY_le _ _ _ hy0B, insertByY_le _ _ _ hyR0]
    rw [assemble_text, hsy]
    show joinNL ((groupGo [iR] [iL, iB]).map
      (fun line => joinSp ((sortByX line).map OItem.text))) = _
    rw [hgroupR]
    exact hfinR
  · have hsy : sortByY ([dR, dB, dL].map toOItem) = [iR, iL, iB] := by
      show insertByY iR (insertByY iB (insertByY iL [])) = [iR, iL, iB]
      rw [insertByY, insertByY_gt _ _ _ hyB0, insertByY, insertByY_le _ _ _ hyR0]
    rw [assemble_text, hsy]
    show joinNL ((groupGo [iR] [iL, iB]).map
      (fun line => joinSp ((sortByX line).map OItem.text))) = _
    rw [hgroupR]
    exact hfinR
  · have hsy : sortByY ([dB, dL, dR].map toOItem) = [iL, iR, iB] := by
      show insertByY iB (insertByY iL (insertByY iR [])) = [iL, iR, iB]
      rw [insertByY, insertByY_le _ _ _ hy01, insertByY_gt _ _ _ hyB0,
        insertByY_gt _ _ _ hyBR, insertByY]
    rw [assemble_text, hsy]
    show joinNL ((groupGo [iL] [iR, iB]).map
      (fun line => joinSp ((sortByX line).map OItem.text))) = _
    rw [hgroupL]
    exact hfinL
  · have hsy : sortByY ([dB, dR, dL].map toOItem) = [iR, iL, iB] := by
      show insertByY iB (insertByY iR (insertByY iL [])) = [iR, iL, iB]
      rw [insertByY, insertByY_le _ _ _ hyR0, insertByY_gt _ _ _ hyBR,
        insertByY_gt _ _ _ hyB0, insertByY]
    rw [assemble_text, hsy]
    show joinNL ((groupGo [iR] [iL, iB]).map
      (fun line => joinSp ((sortByX line).map OItem.text))) = _
    rw [hgroupR]
    exact hfinR

/-- Witness for C10 at a concrete input. -/
theorem assemble_reading_order_witness :
    assemble_text
        [⟨[(0, 0), (10, 0), (10, 10), (0, 10)], "Left".data, 1⟩,
         ⟨[(20, 0), (30, 0), (30, 10), (20, 10)], "Right".data, 1⟩,
         ⟨[(0, 100), (10, 100), (10, 110), (0, 110)], "Below".data, 1⟩]
      = "Left Right\nBelow".data ∧ assemble_text [] = [] :=
  assemble_reading_order
    ⟨[(0, 0), (10, 0), (10, 10), (0, 10)], "Left".data, 1⟩
    ⟨[(20, 0), (30, 0), (30, 10), (20, 10)], "Right".data, 1⟩
    ⟨[(0, 100), (10, 100), (10, 110), (0, 110)], "Below".data, 1⟩
    _ (Or.inl rfl) rfl rfl rfl
    (by norm_num [minY, min_def]) (by norm_num [minY, min_def])
    (by norm_num [minY, min_def]) (by norm_num [minX, min_def])
    (by norm_num [maxY, minY, max_def, min_def])
    (by norm_num [maxY, minY, max_def, min_def])

end PdfAnki
